import Mathlib

set_option maxHeartbeats 1000000
set_option maxRecDepth 10000

/-
Verification development for the DOCX extraction/segmentation core
(services/data_processor/scripts/extract_docx.py).

Texts are modelled as lists of characters (`Text := List Char`), so that a
Python string index corresponds exactly to a list index (Python indexes
strings by code point, as does `List Char`).  All definitions are direct
translations of the Python source; doc comments name the source function
and line numbers they embed.
-/

abbrev Text := List Char

/-- Newline character, written via its code point. -/
def nlChar : Char := Char.ofNat 10

/-- Whitespace in the sense of Python's `\s` and `str.strip()` restricted to
ASCII (space, tab, newline, carriage return, vertical tab, form feed).  All
inputs considered in this development are ASCII or use non-whitespace
Unicode letters, for which this coincides with Python's notion. -/
def isPySpace (c : Char) : Bool :=
  c == ' ' || c == Char.ofNat 9 || c == Char.ofNat 10 ||
  c == Char.ofNat 13 || c == Char.ofNat 11 || c == Char.ofNat 12

/-- Python `str.strip()`: drop whitespace from both ends. -/
def pyStrip (l : Text) : Text :=
  ((l.dropWhile isPySpace).reverse.dropWhile isPySpace).reverse

/-- The trailing-punctuation set `'.,;:!?)'` of `extract_urls` (line 79). -/
def trailPunct : Text := ['.', ',', ';', ':', '!', '?', ')']

/-- Python `str.rstrip('.,;:!?)')`: drop those characters from the right end. -/
def pyRStripPunct (l : Text) : Text :=
  (l.reverse.dropWhile (fun c => trailPunct.contains c)).reverse

/-- Python's substring test `needle in hay`. -/
def listContains (needle hay : Text) : Bool :=
  (List.range (hay.length + 1)).any (fun i => needle.isPrefixOf (hay.drop i))

/-- Characters excluded by the regex body class `[^\s<>"{}|\\^\x60\[\]]`
(line 75): the characters < > " braces | backslash ^ backtick [ ], written by
code point. -/
def urlExcluded : Text :=
  [60, 62, 34, 123, 125, 124, 92, 94, 96, 91, 93].map Char.ofNat

/-- Membership in the regex class `[^\s<>"{}|\\^\x60\[\]]` (the `+` body of
the URL pattern at line 75). -/
def urlBodyChar (c : Char) : Bool :=
  !(isPySpace c) && !(urlExcluded.contains c)

/-- Membership in the final-character class of the URL pattern (line 75):
body characters that are not trailing sentence punctuation. -/
def urlEndChar (c : Char) : Bool :=
  urlBodyChar c && !(trailPunct.contains c)

/-- Length matched by `https?://` at the head of `cs`, if any.  The regex
engine first tries the branch with `s`; at a given start position at most one
branch can reach `://`. -/
def schemeLen (cs : Text) : Option Nat :=
  if ("https://".data).isPrefixOf cs then some 8
  else if ("http://".data).isPrefixOf cs then some 7
  else none

/-- Length taken by the greedy `[body]+[end]` part of the URL regex on the
maximal body-character run `run`: the largest `k ≥ 2` with `k ≤ run.length`
whose last character is in the end class — exactly the result of the
backtracking of the greedy `+`.  `none` when no such `k` exists (no match). -/
def bestBodyLen (run : Text) : Option Nat :=
  (((List.range run.length).filter
      (fun i => decide (1 ≤ i) && urlEndChar (run.getD i ' '))).getLast?).map
    (fun i => i + 1)

/-- Total length (scheme plus body) of the regex match starting exactly at
the head of `cs`, if the URL pattern of line 75 matches there. -/
def matchLenAt (cs : Text) : Option Nat :=
  match schemeLen cs with
  | none => none
  | some s => (bestBodyLen ((cs.drop s).takeWhile urlBodyChar)).map (fun k => s + k)

/-- Left-to-right non-overlapping scan of `re.finditer` (line 78): at each
position try the pattern; on a match of length `L`, emit `(position, match)`
and resume after it.  `fuel` bounds recursion and is instantiated with the
text length; every step consumes at least one character (a match has
`L ≥ 9`), so the fuel never runs out before the text does. -/
def scanUrlsFuel : Nat → Text → Nat → List (Nat × Text)
  | 0, _, _ => []
  | _ + 1, [], _ => []
  | fuel + 1, c :: rest, pos =>
    match matchLenAt (c :: rest) with
    | some L => (pos, (c :: rest).take L) :: scanUrlsFuel fuel ((c :: rest).drop L) (pos + L)
    | none => scanUrlsFuel fuel rest (pos + 1)

/-- All regex matches of the URL pattern in a text, with their start offsets. -/
def scanUrls (t : Text) : List (Nat × Text) := scanUrlsFuel t.length t 0

/-- Lower-casing used by `categorize_url` (line 102); the URLs involved are
ASCII, for which `Char.toLower` agrees with Python `str.lower()`. -/
def lowerText (t : Text) : Text := t.map Char.toLower

/-- Translation of `DOCXExtractor.categorize_url` (lines 100-113). -/
def categorize_url (url : Text) : Text :=
  let l := lowerText url
  if listContains ("youtube.com".data) l || listContains ("youtu.be".data) l then
    "video".data
  else if listContains ("download".data) l || listContains ("drive.google".data) l
      || listContains ("dropbox".data) l then
    "download".data
  else if listContains ("discord".data) l || listContains ("forum".data) l
      || listContains ("reddit".data) l then
    "community".data
  else if listContains ("pokemmo.com".data) l then
    "official".data
  else
    "external".data

/-- One element of the list returned by `extract_urls` (lines 91-96). -/
structure UrlRec where
  url : Text
  position : Nat
  context : Text
  category : Text
deriving DecidableEq

/-- Translation of `DOCXExtractor.extract_urls` (lines 72-98): run the regex
scan, strip trailing punctuation from each match (`rstrip` at line 79),
record the match start offset, the 50-characters-each-side context
(`max(0, start-50)` is natural subtraction) stripped of whitespace, and the
category of the stripped URL. -/
def extract_urls (t : Text) : List UrlRec :=
  (scanUrls t).map (fun m =>
    let url := pyRStripPunct m.2
    let endPos := m.1 + m.2.length
    let cs := m.1 - 50
    let ce := min t.length (endPos + 50)
    { url := url, position := m.1,
      context := pyStrip ((t.drop cs).take (ce - cs)),
      category := categorize_url url })

/-
Image Resolver: `DOCXExtractor.extract_images_from_docx` (lines 115-166).
The MinIO collaborator is a parameter: `putOk name bytes` tells whether
`put_object` succeeds or raises; the call itself is recorded either way.
`hashFn` abstracts `hashlib.md5(...).hexdigest()[:12]`.  A relationship
whose blob cannot be read (the `image_part.blob` access raising) is
modelled by `blob = none`.
-/

/-- One document relationship (`doc.part.rels.values()`, line 130). -/
structure DocxRel where
  rId : Text
  targetRef : Text
  blob : Option (List UInt8)
deriving DecidableEq

/-- One `put_object` invocation (lines 143-149) as seen by the storage
collaborator. -/
structure PutCall where
  objectName : Text
  payload : List UInt8
  contentType : Text
deriving DecidableEq

/-- Extension selection of line 139:
`rel.target_ref.split('.')[-1] if '.' in rel.target_ref else 'png'`. -/
def dotExt (t : Text) : Text :=
  if t.contains '.' then (t.reverse.takeWhile (fun c => !(c == '.'))).reverse
  else "png".data

/-- Object name of line 140: `f"{doc_name}_{image_hash}.{ext}"`. -/
def mkImageName (hashFn : List UInt8 → Text) (docName targetRef : Text)
    (data : List UInt8) : Text :=
  docName ++ "_".data ++ hashFn data ++ ".".data ++ dotExt targetRef

/-- Stored URL of line 152: `f"http://{endpoint}/images/{image_name}"`. -/
def imageUrlOf (endpoint name : Text) : Text :=
  "http://".data ++ endpoint ++ "/images/".data ++ name

/-- Body of the per-relationship loop of lines 130-158.  The `try/except:
continue` around each image is modelled by the failure branches returning the
accumulator unchanged: a blob that cannot be read makes no `put` call, a
`put` that raises leaves the map unchanged but the call was made. -/
def imgStep (putOk : Text → List UInt8 → Bool) (hashFn : List UInt8 → Text)
    (endpoint docName : Text) (acc : List PutCall × List (Text × Text))
    (rel : DocxRel) : List PutCall × List (Text × Text) :=
  if listContains ("image".data) rel.targetRef then
    match rel.blob with
    | none => acc
    | some data =>
      let name := mkImageName hashFn docName rel.targetRef data
      let call : PutCall :=
        { objectName := name, payload := data, contentType := "image/png".data }
      if putOk name data then
        (acc.1 ++ [call], acc.2 ++ [(rel.rId, imageUrlOf endpoint name)])
      else
        (acc.1 ++ [call], acc.2)
  else acc

/-- Translation of `extract_images_from_docx` (lines 115-166): fold the
per-relationship step over the relationship list, returning both the log of
storage calls made and the resulting rId-to-URL map.  The function is total:
no failure of an individual image escapes (the source catches and continues,
line 156-158). -/
def extract_images_from_docx (putOk : Text → List UInt8 → Bool)
    (hashFn : List UInt8 → Text) (endpoint docName : Text)
    (rels : List DocxRel) : List PutCall × List (Text × Text) :=
  rels.foldl (imgStep putOk hashFn endpoint docName) ([], [])

/-
Chunk Segmenter: `DOCXExtractor.chunk_text_with_metadata` (lines 182-297).
A paragraph is its text plus the image relationship ids referenced by its
runs (the output of `get_paragraph_images`, lines 168-180).  The image map
(rId to external URL) produced by the Image Resolver is an input, mirroring
line 203.  The ghost fields `ovLen` and `folded` record, for each chunk, the
length of the overlap prefix its buffer started with and the indices of the
paragraphs folded into it; they are determined by the run of the source
algorithm and are erased by the projection to the emitted record shape.
-/

/-- A paragraph as the segmenter sees it. -/
structure Para where
  text : Text
  rIds : List Text
deriving DecidableEq

/-- Default paragraph used with `List.getD`. -/
def dPara : Para := { text := [], rIds := [] }

/-- One finalized chunk, before projection to the persisted record: the raw
accumulators at flush time plus the offset range of lines 238-239/268-269
and the ghost fields described above. -/
structure GChunk where
  idx : Nat
  buffer : Text
  rawImages : List Text
  urlDetails : List UrlRec
  gStart : Int
  gEnd : Nat
  ovLen : Nat
  folded : List Nat
deriving DecidableEq

/-- Default chunk used with `List.getD`. -/
def dG : GChunk :=
  { idx := 0, buffer := [], rawImages := [], urlDetails := [], gStart := 0,
    gEnd := 0, ovLen := 0, folded := [] }

/-- Loop state of lines 214-218: accumulated chunks, `current_chunk`,
`current_images`, `chunk_index`, `text_position`, plus the ghost overlap
length and folded indices of the in-progress buffer. -/
structure SegSt where
  chunks : List GChunk
  current : Text
  curImages : List Text
  idx : Nat
  pos : Nat
  curOv : Nat
  curFolded : List Nat
deriving DecidableEq

/-- Initial state (lines 214-218). -/
def initSt : SegSt :=
  { chunks := [], current := [], curImages := [], idx := 0, pos := 0,
    curOv := 0, curFolded := [] }

/-- Lookup in the image map; with the dict's distinct keys this coincides
with Python `image_map.get(rid)` guarded by `rid in image_map` (line 228). -/
def lookupTR (m : List (Text × Text)) (r : Text) : Option Text := m.lookup r

/-- Overlap slice of line 259:
`current_chunk[-overlap:] if len(current_chunk) > overlap else current_chunk`.
Note Python's `s[-0:]` is the whole string, reproduced by the `overlap = 0`
branch. -/
def overlap_text (cur : Text) (overlap : Nat) : Text :=
  if overlap < cur.length then
    (if overlap = 0 then cur else cur.drop (cur.length - overlap))
  else cur

/-- Chunk finalization of lines 236-256 (and 266-285): compute
`chunk_start = text_position - len(current_chunk)` (a Python `int`, hence
`Int` here), `chunk_end = text_position`, select the URL records whose
offset lies in `[chunk_start, chunk_end)`, and append the chunk. -/
def flushChunk (allU : List UrlRec) (st : SegSt) : SegSt :=
  let cEnd := st.pos
  let cStart : Int := (st.pos : Int) - (st.current.length : Int)
  let curls := allU.filter
    (fun u => decide (cStart ≤ (u.position : Int)) && decide ((u.position : Int) < (cEnd : Int)))
  { st with
    chunks := st.chunks ++
      [{ idx := st.idx, buffer := st.current, rawImages := st.curImages,
         urlDetails := curls, gStart := cStart, gEnd := cEnd,
         ovLen := st.curOv, folded := st.curFolded }],
    idx := st.idx + 1 }

/-- One iteration of the paragraph loop, lines 220-263.  `k` is the index of
`para` in the document.  Empty-after-strip paragraphs are skipped before the
position advance (the `continue` at line 224 precedes line 263, so skipped
paragraphs do not advance `text_position`). -/
def segStep (allU : List UrlRec) (imageMap : List (Text × Text))
    (chunk_size overlap : Nat) (k : Nat) (para : Para) (st : SegSt) : SegSt :=
  let para_text := pyStrip para.text
  if para_text = [] then st
  else
    let para_image_urls := para.rIds.filterMap (fun r => lookupTR imageMap r)
    if st.current.length + para_text.length ≤ chunk_size then
      { st with
        current := st.current ++ para_text ++ [nlChar],
        curImages := st.curImages ++ para_image_urls,
        curFolded := st.curFolded ++ [k],
        pos := st.pos + para_text.length + 1 }
    else
      let st1 := if st.current = [] then st else flushChunk allU st
      let ov := overlap_text st.current overlap
      { st1 with
        current := ov ++ para_text ++ [nlChar],
        curImages := para_image_urls,
        curOv := ov.length,
        curFolded := [k],
        pos := st1.pos + para_text.length + 1 }

/-- The paragraph loop of lines 220-263, threading the paragraph index. -/
def segLoop (allU : List UrlRec) (imageMap : List (Text × Text))
    (chunk_size overlap : Nat) : Nat → List Para → SegSt → SegSt
  | _, [], st => st
  | k, p :: ps, st =>
    segLoop allU imageMap chunk_size overlap (k + 1) ps
      (segStep allU imageMap chunk_size overlap k p st)

/-- Full text of line 206: paragraph texts joined with newline separators. -/
def fullTextOf (paras : List Para) : Text :=
  List.intercalate [nlChar] (paras.map Para.text)

/-- The segmentation loop of `chunk_text_with_metadata` (lines 205-285),
producing the finalized chunks with their ghost fields: extract all URLs
from the full text once, run the paragraph loop, and flush the last
non-empty buffer (lines 266-285). -/
def segmentGhost (paras : List Para) (imageMap : List (Text × Text))
    (chunk_size overlap : Nat) : List GChunk :=
  let allU := extract_urls (fullTextOf paras)
  let stF := segLoop allU imageMap chunk_size overlap 0 paras initSt
  (if stF.current = [] then stF else flushChunk allU stF).chunks

/-- The emitted chunk record (the dict of lines 245-255). -/
structure ChunkRec where
  chunk_index : Nat
  content : Text
  images : List Text
  urls : List Text
  url_details : List UrlRec
  has_images : Bool
  has_links : Bool
  image_count : Nat
  link_count : Nat
deriving DecidableEq

/-- Default record used with `List.getD`. -/
def dRec : ChunkRec :=
  { chunk_index := 0, content := [], images := [], urls := [],
    url_details := [], has_images := false, has_links := false,
    image_count := 0, link_count := 0 }

/-- Projection of a finalized chunk to the emitted record (lines 245-255):
`content` is the stripped buffer; `images` is `list(set(current_images))`
realized by the `listSet` parameter (CPython iterates a set of strings in an
order depending on the per-process hash seed, so the order is not a function
of the input; any realization is a duplicate-free reordering, see
`IsPySetList`); note `has_images` and `image_count` are computed from the
raw `current_images` list, before deduplication, exactly as in the source. -/
def toRec (listSet : List Text → List Text) (g : GChunk) : ChunkRec :=
  { chunk_index := g.idx,
    content := pyStrip g.buffer,
    images := listSet g.rawImages,
    urls := g.urlDetails.map UrlRec.url,
    url_details := g.urlDetails,
    has_images := decide (0 < g.rawImages.length),
    has_links := decide (0 < g.urlDetails.length),
    image_count := g.rawImages.length,
    link_count := g.urlDetails.length }

/-- Translation of `chunk_text_with_metadata` (lines 182-297): segment the
paragraphs and project each finalized chunk to the emitted record.
`listSet` realizes Python's `list(set(...))` as explained at `toRec`. -/
def chunk_text_with_metadata (listSet : List Text → List Text)
    (paras : List Para) (imageMap : List (Text × Text))
    (chunk_size overlap : Nat) : List ChunkRec :=
  (segmentGhost paras imageMap chunk_size overlap).map (toRec listSet)

/-- Specification of a faithful realization of Python's `list(set(l))` for
string lists: a duplicate-free list with exactly the members of `l` (the
iteration order of a CPython set is unspecified). -/
def IsPySetList (f : List Text → List Text) : Prop :=
  ∀ l : List Text, (f l).Nodup ∧ ∀ x, x ∈ f l ↔ x ∈ l

/-- A second faithful realization of `list(set(...))`, iterating in reverse
insertion order; used to exhibit the order-dependence of the output. -/
def revSet : List Text → List Text := fun l => List.dedup l.reverse

/-
Derived notions used in the statements: the trimmed text of a paragraph,
the indices of non-empty paragraphs, the largest trimmed-paragraph length
among a set of indices, and the invariants tying a run of the segmenter to
its emitted chunks.
-/

/-- Trimmed text of paragraph `i` of the document. -/
def paraStrip (paras : List Para) (i : Nat) : Text :=
  pyStrip ((paras.getD i dPara).text)

/-- Indices below `k` of paragraphs whose trimmed text is non-empty. -/
def neIdx (paras : List Para) (k : Nat) : List Nat :=
  (List.range k).filter (fun i => decide (paraStrip paras i ≠ []))

/-- Largest trimmed length among the paragraphs with indices in `fs`. -/
def maxLenList (paras : List Para) (fs : List Nat) : Nat :=
  (fs.map (fun i => (paraStrip paras i).length)).foldr max 0

/-- Offset at which the last emitted chunk ended (0 before the first flush). -/
def lastEnd (st : SegSt) : Nat :=
  match st.chunks.getLast? with
  | some c => c.gEnd
  | none => 0

/-- Buffer length of the last emitted chunk (0 before the first flush). -/
def lastBufLen (st : SegSt) : Nat :=
  match st.chunks.getLast? with
  | some c => c.buffer.length
  | none => 0

/-- Facts established for every emitted chunk: its URL selection is the
filter of all extracted URLs over its `[gStart, gEnd)` range; the range has
the buffer's length; the buffer is an overlap prefix of length `ovLen`
followed by the trimmed folded paragraphs each terminated by a newline; the
buffer strictly exceeds its overlap prefix and ends with a newline; the
buffer length is bounded; and with a positive configured overlap the carried
prefix never exceeds it. -/
def ChunkOK (paras : List Para) (allU : List UrlRec)
    (chunk_size overlap : Nat) (c : GChunk) : Prop :=
  c.urlDetails = allU.filter
    (fun u => decide (c.gStart ≤ (u.position : Int)) && decide ((u.position : Int) < (c.gEnd : Int)))
  ∧ c.gStart + (c.buffer.length : Int) = (c.gEnd : Int)
  ∧ (∃ pre, pre.length = c.ovLen ∧
      c.buffer = pre ++ (c.folded.map (fun i => paraStrip paras i ++ [nlChar])).flatten)
  ∧ c.ovLen < c.buffer.length
  ∧ c.buffer.getLast? = some nlChar
  ∧ c.buffer.length ≤ max (chunk_size + 1) (c.ovLen + maxLenList paras c.folded + 1)
  ∧ (0 < overlap → c.ovLen ≤ overlap)

/-- Relation between consecutive emitted chunks: the later chunk's range
starts exactly `ovLen` characters before the earlier one ends (the overlap
carry), ends strictly later, and its overlap prefix is no longer than the
earlier chunk's buffer. -/
def adjOK (c c' : GChunk) : Prop :=
  c'.gStart = (c.gEnd : Int) - (c'.ovLen : Int) ∧ c.gEnd < c'.gEnd
  ∧ c'.ovLen ≤ c.buffer.length

/-- Invariant of the segmentation loop after consuming the first `k`
paragraphs. -/
structure SegInv (paras : List Para) (allU : List UrlRec)
    (chunk_size overlap : Nat) (k : Nat) (st : SegSt) : Prop where
  posEq : st.pos + st.curOv = st.current.length + lastEnd st
  emptyInit : st.current = [] →
    st.chunks = [] ∧ st.curFolded = [] ∧ st.curOv = 0 ∧ st.pos = 0
  ovLt : st.current ≠ [] → st.curOv < st.current.length
  endsNl : st.current ≠ [] → st.current.getLast? = some nlChar
  bufStruct : ∃ pre, pre.length = st.curOv ∧
    st.current = pre ++ (st.curFolded.map (fun i => paraStrip paras i ++ [nlChar])).flatten
  foldedAcc : (st.chunks.map GChunk.folded).flatten ++ st.curFolded = neIdx paras k
  lenBound : st.current.length ≤
    max (chunk_size + 1) (st.curOv + maxLenList paras st.curFolded + 1)
  ovCfg : 0 < overlap → st.curOv ≤ overlap
  chunksOK : ∀ c ∈ st.chunks, ChunkOK paras allU chunk_size overlap c
  chain : List.Chain' adjOK st.chunks
  lastLink : st.chunks ≠ [] → st.curOv ≤ lastBufLen st

/-
Concrete documents and inputs used to test the claims.
-/

/-- Scenario text of the URL-extraction claim. -/
def c7text : Text := "Xem tại https://youtube.com/watch?v=abc, chi tiết.".data

/-- Document whose first paragraph is whitespace-only: the URL in paragraph
1 sits at offset 51 of the joined full text, but the segmenter's running
offset never accounts for the skipped whitespace paragraph. -/
def c1doc : List Para :=
  [⟨List.replicate 50 ' ', []⟩, ⟨"http://ab.cd".data, []⟩,
   ⟨List.replicate 30 'z', []⟩]

/-- Document whose only URL (offset 3) lies inside the span duplicated as
overlap into the second chunk. -/
def c2doc : List Para :=
  [⟨"xx http://ab.cd".data, []⟩, ⟨List.replicate 10 'z', []⟩]

/-- Single-paragraph document used for the paragraph-conservation witness. -/
def c3doc : List Para := [⟨"hi".data, []⟩]

/-- Paragraphs of lengths 600, 900, 900: with budget 1000 and overlap 200
the middle chunk has content length 1100 although no paragraph exceeds the
budget. -/
def c4doc : List Para :=
  [⟨List.replicate 600 'a', []⟩, ⟨List.replicate 900 'b', []⟩,
   ⟨List.replicate 900 'c', []⟩]

/-- Three paragraphs of 600 characters each (the spec's scenario). -/
def c5doc : List Para :=
  [⟨List.replicate 600 'a', []⟩, ⟨List.replicate 600 'b', []⟩,
   ⟨List.replicate 600 'c', []⟩]

/-- Relationship ids and external URLs for the image-bearing documents. -/
def rid1 : Text := "r1".data

/-- Second relationship id. -/
def rid2 : Text := "r2".data

/-- First external image URL. -/
def img1 : Text := "u1".data

/-- Second external image URL. -/
def img2 : Text := "u2".data

/-- One paragraph referencing two distinct images. -/
def c6doc : List Para := [⟨"hello".data, [rid1, rid2]⟩]

/-- Image map resolving the two relationship ids to distinct URLs. -/
def c6map : List (Text × Text) := [(rid1, img1), (rid2, img2)]

/-- One paragraph referencing the same relationship id twice. -/
def c9doc : List Para := [⟨"hello".data, [rid1, rid1]⟩]

/-- Image map for the duplicate-reference document. -/
def c9map : List (Text × Text) := [(rid1, img1)]

/-- An image relationship whose blob cannot be read. -/
def relFail : DocxRel := ⟨"rId1".data, "media/image1.png".data, none⟩

/-- An image relationship that succeeds and carries a `.jpeg` original
extension. -/
def relOk : DocxRel := ⟨"rId2".data, "media/image2.jpeg".data, some [1, 2]⟩

/-- Two image relationships: the first one's blob cannot be read, the second
succeeds. -/
def c8rels : List DocxRel := [relFail, relOk]

/-- Storage collaborator that always succeeds. -/
def allPut : Text → List UInt8 → Bool := fun _ _ => true

/-- Concrete 12-character content hash used in witnesses. -/
def hashC : List UInt8 → Text := fun _ => "abcdef012345".data

/-- Concrete endpoint used in witnesses. -/
def ep0 : Text := "minio:9000".data

/-- Concrete document name used in witnesses. -/
def dn0 : Text := "doc".data

/-- Whether the per-relationship step inserts `rel` into the map: the
relationship targets an image, its blob is readable, and the storage call
succeeds.  Executable mirror of the success path of lines 130-154. -/
def imgSuccessB (putOk : Text → List UInt8 → Bool) (hashFn : List UInt8 → Text)
    (dn : Text) (rel : DocxRel) : Bool :=
  listContains ("image".data) rel.targetRef &&
    (match rel.blob with
     | none => false
     | some data => putOk (mkImageName hashFn dn rel.targetRef data) data)

/-- Default `PutCall` used with `List.getD`. -/
def dPut : PutCall := ⟨[], [], []⟩

/-- The single storage call made on `c8rels` (for the failing first
relationship no call is made). -/
def c10call : PutCall :=
  ((extract_images_from_docx allPut hashC ep0 dn0 c8rels).1).getD 0 dPut

/-- Default `UrlRec` used with `List.getD`. -/
def dUrl : UrlRec := ⟨[], 0, [], []⟩

/-- The URL record extracted from `c2doc`: offset 3, inside the span later
duplicated as overlap. -/
def uC2 : UrlRec :=
  { url := "http://ab.cd".data, position := 3,
    context := fullTextOf c2doc, category := "external".data }

/-- The URL record extracted from the scenario text `c7text`. -/
def uC7 : UrlRec :=
  { url := "https://youtube.com/watch?v=abc".data, position := 8,
    context := c7text, category := "video".data }

/-- The single chunk emitted for `c9doc` (duplicate image reference). -/
def cW9 : ChunkRec :=
  (chunk_text_with_metadata List.dedup c9doc c9map 1000 200).getD 0 dRec

/-- The middle chunk emitted for `c4doc` (content length 1100). -/
def gW4 : GChunk := (segmentGhost c4doc [] 1000 200).getD 1 dG

/-
Helper lemmas.
-/

/-- Dropping while a predicate holds is idempotent. -/
theorem dropWhile_idem (p : Char → Bool) (l : Text) :
    List.dropWhile p (List.dropWhile p l) = List.dropWhile p l := by
  induction l with
  | nil => simp
  | cons a l ih =>
    by_cases h : p a
    · simpa [List.dropWhile_cons, h] using ih
    · simp [List.dropWhile_cons, h]

/-- Stripping trailing punctuation is idempotent: a stripped URL carries no
trailing sentence punctuation. -/
theorem pyRStripPunct_idem (l : Text) :
    pyRStripPunct (pyRStripPunct l) = pyRStripPunct l := by
  unfold pyRStripPunct
  rw [List.reverse_reverse, dropWhile_idem]

/-- The realization `List.dedup` of `list(set(...))` is faithful. -/
theorem isPySetList_dedup : IsPySetList List.dedup := by
  intro l
  exact ⟨List.nodup_dedup l, fun x => List.mem_dedup⟩

/-- The reverse-order realization of `list(set(...))` is faithful. -/
theorem isPySetList_revSet : IsPySetList revSet := by
  intro l
  refine ⟨List.nodup_dedup _, fun x => ?_⟩
  simp [revSet, List.mem_dedup, List.mem_reverse]

/-- The overlap slice is never longer than the buffer it is cut from. -/
theorem overlap_text_length_le (cur : Text) (ov : Nat) :
    (overlap_text cur ov).length ≤ cur.length := by
  unfold overlap_text
  split
  · split
    · exact le_refl _
    · simp
  · exact le_refl _

/-- With a positive configured overlap, the overlap slice has at most
`ov` characters. -/
theorem overlap_text_length_cfg (cur : Text) (ov : Nat) (hov : 0 < ov) :
    (overlap_text cur ov).length ≤ ov := by
  unfold overlap_text
  split
  · split
    · omega
    · rename_i h _
      rw [List.length_drop]
      omega
  · rename_i h
    omega

/-- A list whose last character satisfies the whitespace predicate strictly
shrinks under `pyStrip`. -/
theorem pyStrip_length_lt (l : Text) (h : l.getLast? = some nlChar) :
    (pyStrip l).length < l.length := by
  have hl : l ≠ [] := by
    intro hnil; rw [hnil] at h; simp at h
  have hlen : 0 < l.length := List.length_pos.mpr hl
  unfold pyStrip
  rw [List.length_reverse]
  set m := l.dropWhile isPySpace with hm
  rcases eq_or_ne m [] with hme | hme
  · rw [hme]
    simpa using hlen
  · have hsuf : m <:+ l := List.dropWhile_suffix isPySpace
    rcases hsuf with ⟨u, hu⟩
    obtain ⟨c0, hc0⟩ : ∃ c0, m.getLast? = some c0 := by
      cases hx : m.getLast? with
      | none => exact absurd (List.getLast?_eq_none_iff.mp hx) hme
      | some c0 => exact ⟨c0, rfl⟩
    have hlast : m.getLast? = some nlChar := by
      have h2 : (u ++ m).getLast? = m.getLast?.or u.getLast? := List.getLast?_append
      rw [hu, h, hc0] at h2
      rw [hc0]
      simpa using h2.symm
    have hml : m.length ≤ l.length := by
      rw [← hu]; simp
    have hhead : m.reverse.head? = some nlChar := by
      rw [List.head?_reverse, hlast]
    rcases List.exists_cons_of_ne_nil (by simpa using hme : m.reverse ≠ []) with ⟨c, t, hct⟩
    have hc : c = nlChar := by
      rw [hct] at hhead; simpa using hhead
    rw [hct, hc]
    have hnl : isPySpace nlChar = true := by decide
    rw [List.dropWhile_cons_of_pos hnl]
    have := List.Sublist.length_le (List.dropWhile_sublist (l := t) (p := isPySpace))
    have hmt : m.length = t.length + 1 := by
      have : m.reverse.length = t.length + 1 := by rw [hct]; simp
      simpa using this
    omega

/-- `neIdx` grows by the new index exactly when the new paragraph is
non-empty after stripping. -/
theorem neIdx_succ_pos (paras : List Para) (k : Nat) (h : paraStrip paras k ≠ []) :
    neIdx paras (k + 1) = neIdx paras k ++ [k] := by
  unfold neIdx
  rw [List.range_succ, List.filter_append]
  simp [h]

/-- `neIdx` is unchanged when the new paragraph strips to empty. -/
theorem neIdx_succ_neg (paras : List Para) (k : Nat) (h : paraStrip paras k = []) :
    neIdx paras (k + 1) = neIdx paras k := by
  unfold neIdx
  rw [List.range_succ, List.filter_append]
  simp [h]

/-- Indices of non-empty paragraphs contain no duplicates. -/
theorem neIdx_nodup (paras : List Para) (k : Nat) : (neIdx paras k).Nodup :=
  List.Nodup.filter _ (List.nodup_range k)

/-- Any index of a non-empty paragraph occurs in `neIdx`. -/
theorem mem_neIdx (paras : List Para) (k i : Nat) (hi : i < k)
    (h : paraStrip paras i ≠ []) : i ∈ neIdx paras k := by
  unfold neIdx
  rw [List.mem_filter]
  exact ⟨List.mem_range.mpr hi, by simpa using h⟩

/-- If an element occurs exactly once in the concatenation, exactly one of
the component lists contains it. -/
theorem filter_length_of_count_flatten_one (L : List (List Nat)) (i : Nat)
    (h : L.flatten.count i = 1) :
    (L.filter (fun l => decide (i ∈ l))).length = 1 := by
  induction L with
  | nil => simp at h
  | cons a L ih =>
    rw [List.flatten_cons, List.count_append] at h
    by_cases hm : i ∈ a
    · have ha : 0 < a.count i := List.count_pos_iff.mpr hm
      have hL : L.flatten.count i = 0 := by omega
      have hnot : ∀ l ∈ L, i ∉ l := by
        intro l hl hil
        have : i ∈ L.flatten := List.mem_flatten.mpr ⟨l, hl, hil⟩
        exact absurd this (List.count_eq_zero.mp hL)
      have hfe : L.filter (fun l => decide (i ∈ l)) = [] := by
        rw [List.filter_eq_nil_iff]
        intro l hl
        simpa using hnot l hl
      rw [List.filter_cons_of_pos (by simpa using hm), hfe]
      rfl
    · have ha : a.count i = 0 := List.count_eq_zero.mpr hm
      rw [List.filter_cons_of_neg (by simpa using hm)]
      exact ih (by omega)

/-- Concatenating the image of a list containing `i` exhibits `g i` as a
segment. -/
theorem flatten_mem_decomp (g : Nat → Text) (fs : List Nat) (i : Nat)
    (h : i ∈ fs) : ∃ l r, (fs.map g).flatten = l ++ g i ++ r := by
  induction fs with
  | nil => cases h
  | cons a fs ih =>
    rcases List.mem_cons.mp h with rfl | h'
    · exact ⟨[], (fs.map g).flatten, by simp⟩
    · rcases ih h' with ⟨l, r, he⟩
      exact ⟨g a ++ l, r, by simp [he]⟩

/-
Claim C1.  The segmenter's running offset `text_position` advances by the
length of each paragraph's *stripped* text and not at all for paragraphs
that strip to empty, while the URL offsets index the full joined text of the
*unstripped* paragraphs.  On `c1doc` (a 50-space paragraph followed by a URL
paragraph) the only URL sits at absolute offset 51, paragraph 1 is folded
into chunk 0 (whose range is computed as `[0, 13)`), and the URL is listed
in no chunk at all.
-/

/-- C1: on `c1doc` with `chunk_size = 30`, `overlap = 5`, the extractor
finds exactly one URL, at absolute offset 51 of the joined document text;
paragraph 1 (the URL-bearing paragraph) is folded into chunk 0's primary
portion, but both emitted chunks carry an empty URL list and chunk 0's
recorded range ends at offset 13 — the link is attributed to no chunk,
contradicting the claimed offset coincidence. -/
theorem c1_dropped_link :
    (extract_urls (fullTextOf c1doc)).map UrlRec.position = [51]
    ∧ (segmentGhost c1doc [] 30 5).map GChunk.folded = [[1], [2]]
    ∧ (segmentGhost c1doc [] 30 5).map GChunk.urlDetails = [[], []]
    ∧ (segmentGhost c1doc [] 30 5).map GChunk.gEnd = [13, 44] := by
  exact ⟨by decide, by decide, by decide, by decide⟩

/-
Claim C2.  The counterexample: on `c2doc` (paragraph 0 of 15 characters
holding the URL at offset 3, then a 10-character paragraph) with
`chunk_size = 20`, `overlap = 15`, chunk 1's buffer starts with the 15
characters duplicated from chunk 0 — original offsets `[1, 16)` — and the
URL at offset 3, which lies in that duplicated span, *is* listed in
chunk 1's URL set (indeed in both chunks').
-/

/-- C2 counterexample: the URL at offset 3 lies in the original-text span
`[1, 16)` duplicated as chunk 1's overlap prefix (chunk 0 ends at 16,
chunk 1 carries `ovLen = 15`), and chunk 1 lists it — the claim asserts it
would be absent. -/
theorem c2_counterexample :
    (extract_urls (fullTextOf c2doc)).map UrlRec.position = [3]
    ∧ (segmentGhost c2doc [] 20 15).map GChunk.gEnd = [16, 27]
    ∧ (segmentGhost c2doc [] 20 15).map GChunk.ovLen = [0, 15]
    ∧ (segmentGhost c2doc [] 20 15).map
        (fun c => c.urlDetails.map UrlRec.position) = [[3], [3]]
    ∧ ((chunk_text_with_metadata List.dedup c2doc [] 20 15).getD 1 dRec).urls
        = ["http://ab.cd".data] := by
  exact ⟨by decide, by decide, by decide, by decide, by decide⟩

/-
Claim C4.  The counterexample: paragraphs of trimmed lengths 600, 900, 900
(none exceeding the budget 1000) with overlap 200 produce a middle chunk of
content length 1100 — the overlap carry plus a 900-character paragraph.
-/

/-- C4 counterexample: on `c4doc` (paragraph lengths 600, 900, 900, all at
most the budget 1000) with overlap 200, chunk 1's content has 1100
characters, exceeding `max_chunk_size` although it is not a single
oversized paragraph. -/
theorem c4_counterexample :
    c4doc.map (fun p => (pyStrip p.text).length) = [600, 900, 900]
    ∧ ((chunk_text_with_metadata List.dedup c4doc [] 1000 200).getD 1 dRec).content.length
        = 1100 := by
  exact ⟨by rfl, by rfl⟩

/-
Claim C5.  The overlap slice is taken from the pre-strip buffer, which ends
with a newline, while the emitted content is the stripped buffer: the
second chunk starts with the last 199 characters of paragraph 1 followed by
a newline, not with the 200-character suffix of chunk 1's content.
-/

/-- C5 counterexample: on three 600-character paragraphs with budget 1000
and overlap 200, the first chunk's content is exactly paragraph 1, but the
second chunk's content does not start with the 200-character suffix of the
first chunk's content (its 200th character is the newline carried inside
the overlap slice). -/
theorem c5_counterexample :
    ((chunk_text_with_metadata List.dedup c5doc [] 1000 200).getD 0 dRec).content
      = List.replicate 600 'a'
    ∧ (((chunk_text_with_metadata List.dedup c5doc [] 1000 200).getD 0 dRec).content.drop 400).isPrefixOf
        (((chunk_text_with_metadata List.dedup c5doc [] 1000 200).getD 1 dRec).content)
      = false := by
  exact ⟨by rfl, by rfl⟩

/-- C5 amended: exactly three chunks are emitted; the first chunk's content
is exactly paragraph 1 (600 characters); the second chunk's content starts
with the 200-character suffix of the first chunk's *pre-strip buffer* —
the last 199 characters of paragraph 1 followed by a newline — and then
paragraph 2. -/
theorem c5_scenario_amended :
    (chunk_text_with_metadata List.dedup c5doc [] 1000 200).length = 3
    ∧ ((chunk_text_with_metadata List.dedup c5doc [] 1000 200).getD 0 dRec).content
        = List.replicate 600 'a'
    ∧ ((chunk_text_with_metadata List.dedup c5doc [] 1000 200).getD 1 dRec).content
        = List.replicate 199 'a' ++ [nlChar] ++ List.replicate 600 'b' := by
  exact ⟨by rfl, by rfl, by rfl⟩

/-
Claim C6.  `list(set(current_images))` (line 248) iterates a CPython set of
strings, whose order depends on the per-process hash seed
(`PYTHONHASHSEED`): it is not a function of the segmenter's input.  Two
faithful realizations of `list(set(...))` produce different byte output on
a document whose only chunk carries two distinct images.
-/

/-- C6 counterexample: `List.dedup` and `revSet` are both faithful
realizations of Python's `list(set(...))`, yet on `c6doc` (one paragraph
with two distinct images) they yield different chunk output — byte-identical
output across runs is not guaranteed, because the images ordering is not a
function of the input. -/
theorem c6_counterexample :
    IsPySetList List.dedup ∧ IsPySetList revSet
    ∧ chunk_text_with_metadata List.dedup c6doc c6map 1000 200 ≠
        chunk_text_with_metadata revSet c6doc c6map 1000 200 :=
  ⟨isPySetList_dedup, isPySetList_revSet, by decide⟩

/-
Claim C7.  The scenario equality, plus the general fact that every record
returned by the extractor carries a URL already stripped of trailing
punctuation and a category computed from that stripped URL.
-/

/-- C7: on the scenario text, the extractor yields exactly one record, whose
URL is the match with the trailing comma removed and whose category is
`video`; in general every returned record's URL is invariant under the
trailing-punctuation strip (it was stripped before classification) and its
category is the classification of that stripped URL. -/
theorem c7_url_extraction :
    extract_urls c7text = [uC7]
    ∧ ∀ (t : Text) (u : UrlRec), u ∈ extract_urls t →
        pyRStripPunct u.url = u.url ∧ u.category = categorize_url u.url := by
  constructor
  · decide
  · intro t u hu
    unfold extract_urls at hu
    rcases List.mem_map.mp hu with ⟨m, _, rfl⟩
    exact ⟨pyRStripPunct_idem m.2, rfl⟩

/-- C7 witness: the general part of `c7_url_extraction` applied to the
scenario record itself. -/
theorem c7_url_extraction_witness :
    pyRStripPunct uC7.url = uC7.url ∧ uC7.category = categorize_url uC7.url :=
  c7_url_extraction.2 c7text uC7 (by decide)

/-
Claim C9.  The counterexample: a paragraph referencing the same relationship
id twice yields `image_count = 2` (the raw accumulator length, line 253)
while the deduplicated `images` list (line 248) has a single entry.
-/

/-- C9 counterexample: on `c9doc` the emitted chunk has `image_count = 2`
but a deduplicated `images` list of length 1 (under the faithful
realization `List.dedup` — any faithful realization gives length 1), so
`image_count` does not equal the number of entries of the deduplicated
images list. -/
theorem c9_counterexample :
    cW9.image_count = 2 ∧ cW9.images.length = 1 ∧ IsPySetList List.dedup :=
  ⟨by decide, by decide, isPySetList_dedup⟩

/-- C9 amended: for every faithful set realization and every emitted chunk,
`link_count` equals the length of `urls`, `has_links` and `has_images` are
the positivity of `link_count` and `image_count` respectively, and
`image_count` counts the raw (pre-deduplication) image references, so it is
an upper bound for — but not in general equal to — the length of the
deduplicated `images` list. -/
theorem c9_derived_fields (f : List Text → List Text) (hf : IsPySetList f)
    (paras : List Para) (imap : List (Text × Text)) (cs ov : Nat) :
    ∀ c ∈ chunk_text_with_metadata f paras imap cs ov,
      c.link_count = c.urls.length
      ∧ c.has_links = decide (0 < c.link_count)
      ∧ c.has_images = decide (0 < c.image_count)
      ∧ c.images.length ≤ c.image_count := by
  intro c hc
  rcases List.mem_map.mp hc with ⟨g, _, rfl⟩
  refine ⟨by simp [toRec], rfl, rfl, ?_⟩
  have h1 := (hf g.rawImages).1
  have h2 := fun x => ((hf g.rawImages).2 x).mp
  have hs : (f g.rawImages).toFinset ⊆ g.rawImages.toFinset := by
    intro x hx
    exact List.mem_toFinset.mpr (h2 x (List.mem_toFinset.mp hx))
  calc (f g.rawImages).length = (f g.rawImages).toFinset.card :=
        (List.toFinset_card_of_nodup h1).symm
    _ ≤ g.rawImages.toFinset.card := Finset.card_le_card hs
    _ ≤ g.rawImages.length := List.toFinset_card_le _

/-- C9 witness: `c9_derived_fields` applied to the single chunk emitted for
`c9doc` under the realization `List.dedup`. -/
theorem c9_derived_fields_witness :
    cW9.link_count = cW9.urls.length
    ∧ cW9.has_links = decide (0 < cW9.link_count)
    ∧ cW9.has_images = decide (0 < cW9.image_count)
    ∧ cW9.images.length ≤ cW9.image_count :=
  c9_derived_fields List.dedup isPySetList_dedup c9doc c9map 1000 200 cW9 (by decide)

/-
Image Resolver lemmas: characterize the accumulated call log and map keys.
-/

/-- Every storage call recorded by one step is either pre-existing or
carries the constant content type `image/png` (line 148). -/
theorem imgStep_calls (putOk : Text → List UInt8 → Bool)
    (hashFn : List UInt8 → Text) (ep dn : Text)
    (acc : List PutCall × List (Text × Text)) (rel : DocxRel) :
    ∀ c ∈ (imgStep putOk hashFn ep dn acc rel).1,
      c ∈ acc.1 ∨ c.contentType = "image/png".data := by
  intro c hc
  simp only [imgStep] at hc
  split at hc
  · split at hc
    · exact Or.inl hc
    · split at hc
      · rcases List.mem_append.mp hc with h | h
        · exact Or.inl h
        · rcases List.mem_singleton.mp h with rfl
          exact Or.inr rfl
      · rcases List.mem_append.mp hc with h | h
        · exact Or.inl h
        · rcases List.mem_singleton.mp h with rfl
          exact Or.inr rfl
  · exact Or.inl hc

/-- Fold version of `imgStep_calls`. -/
theorem imgFold_calls (putOk : Text → List UInt8 → Bool)
    (hashFn : List UInt8 → Text) (ep dn : Text) (rels : List DocxRel) :
    ∀ acc, ∀ c ∈ (rels.foldl (imgStep putOk hashFn ep dn) acc).1,
      c ∈ acc.1 ∨ c.contentType = "image/png".data := by
  induction rels with
  | nil => intro acc c hc; exact Or.inl hc
  | cons a rs ih =>
    intro acc c hc
    rw [List.foldl_cons] at hc
    rcases ih (imgStep putOk hashFn ep dn acc a) c hc with h | h
    · exact imgStep_calls putOk hashFn ep dn acc a c h
    · exact Or.inr h

/-- A key is in the map after one step iff it was there before or the step's
relationship succeeded and has that id. -/
theorem imgStep_keys (putOk : Text → List UInt8 → Bool)
    (hashFn : List UInt8 → Text) (ep dn : Text)
    (acc : List PutCall × List (Text × Text)) (rel : DocxRel) (r : Text) :
    r ∈ (imgStep putOk hashFn ep dn acc rel).2.map Prod.fst ↔
      r ∈ acc.2.map Prod.fst ∨
        (rel.rId = r ∧ imgSuccessB putOk hashFn dn rel = true) := by
  unfold imgStep imgSuccessB
  cases hb : rel.blob with
  | none =>
    by_cases h1 : listContains ("image".data) rel.targetRef
    · simp [h1, hb]
    · simp [h1]
  | some data =>
    by_cases h1 : listContains ("image".data) rel.targetRef
    · by_cases h2 : putOk (mkImageName hashFn dn rel.targetRef data) data = true
      · simp only [h1, hb, h2, if_true, if_pos]
        simp [eq_comm]
      · simp only [h1, hb, if_true, if_pos, if_neg h2]
        simp [h2]
    · simp [h1]

/-- A key is in the final map iff some relationship with that id succeeded
(fold version of `imgStep_keys`). -/
theorem imgFold_keys (putOk : Text → List UInt8 → Bool)
    (hashFn : List UInt8 → Text) (ep dn : Text) (rels : List DocxRel) :
    ∀ (acc : List PutCall × List (Text × Text)) (r : Text),
      r ∈ (rels.foldl (imgStep putOk hashFn ep dn) acc).2.map Prod.fst ↔
        r ∈ acc.2.map Prod.fst ∨
          ∃ rel ∈ rels, rel.rId = r ∧ imgSuccessB putOk hashFn dn rel = true := by
  induction rels with
  | nil => intro acc r; simp
  | cons a rs ih =>
    intro acc r
    rw [List.foldl_cons, ih, imgStep_keys]
    constructor
    · rintro ((h | h) | ⟨rel, hrel, hr⟩)
      · exact Or.inl h
      · exact Or.inr ⟨a, List.mem_cons_self a rs, h⟩
      · exact Or.inr ⟨rel, List.mem_cons_of_mem a hrel, hr⟩
    · rintro (h | ⟨rel, hrel, hr⟩)
      · exact Or.inl (Or.inl h)
      · rcases List.mem_cons.mp hrel with rfl | hrel'
        · exact Or.inl (Or.inr hr)
        · exact Or.inr ⟨rel, hrel', hr⟩

/-
Claims C8 and C10.
-/

/-- C8: with pairwise-distinct relationship ids, a relationship whose
processing fails (unreadable blob or failing storage call) has its id
absent from the returned map, while every successfully processed
relationship's id is present; the resolver is a total function — no
per-image failure escapes it. -/
theorem c8_per_image_isolation (putOk : Text → List UInt8 → Bool)
    (hashFn : List UInt8 → Text) (ep dn : Text) (rels : List DocxRel)
    (hN : (rels.map DocxRel.rId).Nodup) (rel : DocxRel) (hrel : rel ∈ rels)
    (hfail : imgSuccessB putOk hashFn dn rel = false) :
    rel.rId ∉ (extract_images_from_docx putOk hashFn ep dn rels).2.map Prod.fst
    ∧ ∀ s ∈ rels, imgSuccessB putOk hashFn dn s = true →
        s.rId ∈ (extract_images_from_docx putOk hashFn ep dn rels).2.map Prod.fst := by
  constructor
  · intro hmem
    rcases (imgFold_keys putOk hashFn ep dn rels ([], []) rel.rId).mp hmem with
      h | ⟨rel', hrel', heq, hsucc⟩
    · simp at h
    · have : rel' = rel := List.inj_on_of_nodup_map hN hrel' hrel heq
      rw [this, hfail] at hsucc
      exact Bool.false_ne_true hsucc
  · intro s hs hsucc
    exact (imgFold_keys putOk hashFn ep dn rels ([], []) s.rId).mpr
      (Or.inr ⟨s, hs, rfl, hsucc⟩)

/-- C8 witness: on `c8rels` the failing relationship `rId1` is absent from
the map and the succeeding `rId2` is present. -/
theorem c8_per_image_isolation_witness :
    relFail.rId ∉ (extract_images_from_docx allPut hashC ep0 dn0 c8rels).2.map Prod.fst
    ∧ relOk.rId ∈ (extract_images_from_docx allPut hashC ep0 dn0 c8rels).2.map Prod.fst :=
  ⟨(c8_per_image_isolation allPut hashC ep0 dn0 c8rels (by decide) relFail
      (by decide) (by decide)).1,
   (c8_per_image_isolation allPut hashC ep0 dn0 c8rels (by decide) relFail
      (by decide) (by decide)).2 relOk (by decide) (by decide)⟩

/-- C10: every storage call the Image Resolver makes carries the constant
content type `image/png` (line 148), whatever the asset's actual format —
the object name alone reflects the original extension. -/
theorem c10_content_type (putOk : Text → List UInt8 → Bool)
    (hashFn : List UInt8 → Text) (ep dn : Text) (rels : List DocxRel) :
    ∀ c ∈ (extract_images_from_docx putOk hashFn ep dn rels).1,
      c.contentType = "image/png".data := by
  intro c hc
  rcases imgFold_calls putOk hashFn ep dn rels ([], []) c hc with h | h
  · simp at h
  · exact h

/-- C10 witness: the call made for the `.jpeg` relationship of `c8rels`
carries content type `image/png` while its object name ends in `.jpeg`. -/
theorem c10_content_type_witness :
    c10call.contentType = "image/png".data
    ∧ c10call.objectName = "doc_abcdef012345.jpeg".data :=
  ⟨c10_content_type allPut hashC ep0 dn0 c8rels c10call (by decide), by decide⟩

/-
Segmenter invariant machinery.
-/

/-- The overlap slice of an empty buffer is empty. -/
theorem overlap_text_nil (ov : Nat) : overlap_text [] ov = [] := by
  simp [overlap_text]

/-- Flushing ends the last chunk at the current position. -/
theorem lastEnd_flushChunk (allU : List UrlRec) (st : SegSt) :
    lastEnd (flushChunk allU st) = st.pos := by
  simp [lastEnd, flushChunk, List.getLast?_concat]

/-- Flushing records the current buffer as the last chunk's buffer. -/
theorem lastBufLen_flushChunk (allU : List UrlRec) (st : SegSt) :
    lastBufLen (flushChunk allU st) = st.current.length := by
  simp [lastBufLen, flushChunk, List.getLast?_concat]

/-- Flushing leaves a non-empty chunk list. -/
theorem flushChunk_chunks_ne (allU : List UrlRec) (st : SegSt) :
    (flushChunk allU st).chunks ≠ [] := by
  simp [flushChunk]

/-- Flushing does not move the running position. -/
theorem flushChunk_pos (allU : List UrlRec) (st : SegSt) :
    (flushChunk allU st).pos = st.pos := rfl

/-- Flushing does not change the buffer. -/
theorem flushChunk_current (allU : List UrlRec) (st : SegSt) :
    (flushChunk allU st).current = st.current := rfl

/-- Flushing a non-empty buffer preserves the per-chunk facts, the
adjacency chain, and accounts the folded indices. -/
theorem flushChunk_props (paras : List Para) (allU : List UrlRec)
    (cs ov k : Nat) (st : SegSt) (hcur : st.current ≠ [])
    (hinv : SegInv paras allU cs ov k st) :
    (∀ c ∈ (flushChunk allU st).chunks, ChunkOK paras allU cs ov c)
    ∧ List.Chain' adjOK (flushChunk allU st).chunks
    ∧ (((flushChunk allU st).chunks.map GChunk.folded).flatten
        = neIdx paras k) := by
  refine ⟨?_, ?_, ?_⟩
  · intro c hc
    simp only [flushChunk] at hc
    rcases List.mem_append.mp hc with hc | hc
    · exact hinv.chunksOK c hc
    · rcases List.mem_singleton.mp hc with rfl
      refine ⟨rfl, ?_, hinv.bufStruct, hinv.ovLt hcur, hinv.endsNl hcur,
        hinv.lenBound, hinv.ovCfg⟩
      simp only []
      omega
  · simp only [flushChunk]
    rw [List.chain'_append]
    refine ⟨hinv.chain, List.chain'_singleton _, ?_⟩
    intro x hx y hy
    simp only [List.head?_cons, Option.mem_def, Option.some_inj] at hy
    subst hy
    have hxe : lastEnd st = x.gEnd := by
      simp [lastEnd, (Option.mem_def).mp hx]
    have hxb : lastBufLen st = x.buffer.length := by
      simp [lastBufLen, (Option.mem_def).mp hx]
    have hne : st.chunks ≠ [] := by
      intro h0
      rw [h0] at hx
      simp at hx
    have hpe := hinv.posEq
    have hlt := hinv.ovLt hcur
    have hll := hinv.lastLink hne
    refine ⟨?_, ?_, ?_⟩
    · simp only []
      omega
    · simp only []
      omega
    · simp only []
      omega
  · simp only [flushChunk, List.map_append, List.flatten_append]
    rw [← hinv.foldedAcc]
    simp

/-- One step of the paragraph loop preserves the invariant. -/
theorem segStep_inv (paras : List Para) (allU : List UrlRec)
    (imap : List (Text × Text)) (cs ov k : Nat) (p : Para) (st : SegSt)
    (hp : paras.getD k dPara = p) (hinv : SegInv paras allU cs ov k st) :
    SegInv paras allU cs ov (k + 1) (segStep allU imap cs ov k p st) := by
  by_cases hpt : pyStrip p.text = []
  · have hps : paraStrip paras k = [] := by rw [paraStrip, hp]; exact hpt
    have hstep : segStep allU imap cs ov k p st = st := by
      simp [segStep, hpt]
    rw [hstep]
    exact ⟨hinv.posEq, hinv.emptyInit, hinv.ovLt, hinv.endsNl, hinv.bufStruct,
      by rw [neIdx_succ_neg paras k hps]; exact hinv.foldedAcc,
      hinv.lenBound, hinv.ovCfg, hinv.chunksOK, hinv.chain, hinv.lastLink⟩
  · have hps : paraStrip paras k = pyStrip p.text := by rw [paraStrip, hp]
    have hps' : paraStrip paras k ≠ [] := by rw [hps]; exact hpt
    by_cases hfit : st.current.length + (pyStrip p.text).length ≤ cs
    · -- fold the paragraph into the current buffer
      have hstep : segStep allU imap cs ov k p st =
          { chunks := st.chunks,
            current := st.current ++ pyStrip p.text ++ [nlChar],
            curImages := st.curImages ++
              p.rIds.filterMap (fun r => lookupTR imap r),
            idx := st.idx,
            pos := st.pos + (pyStrip p.text).length + 1,
            curOv := st.curOv,
            curFolded := st.curFolded ++ [k] } := by
        simp [segStep, hpt, hfit]
      rw [hstep]
      have hlen : (st.current ++ pyStrip p.text ++ [nlChar]).length
          = st.current.length + (pyStrip p.text).length + 1 := by
        simp only [List.length_append, List.length_cons, List.length_nil]
        try omega
      refine ⟨?_, ?_, ?_, ?_, ?_, ?_, ?_, ?_, ?_, ?_, ?_⟩
      · show st.pos + (pyStrip p.text).length + 1 + st.curOv
          = (st.current ++ pyStrip p.text ++ [nlChar]).length + lastEnd st
        have hpe := hinv.posEq
        rw [hlen]
        omega
      · intro h
        exact absurd h (by simp)
      · intro _
        show st.curOv < (st.current ++ pyStrip p.text ++ [nlChar]).length
        rw [hlen]
        by_cases hcur : st.current = []
        · have h0 := (hinv.emptyInit hcur).2.2.1
          omega
        · have := hinv.ovLt hcur
          omega
      · intro _
        show (st.current ++ pyStrip p.text ++ [nlChar]).getLast? = some nlChar
        exact List.getLast?_concat _
      · rcases hinv.bufStruct with ⟨pre, hpre, hcur⟩
        refine ⟨pre, hpre, ?_⟩
        show st.current ++ pyStrip p.text ++ [nlChar] = pre ++
          (((st.curFolded ++ [k]).map
            (fun i => paraStrip paras i ++ [nlChar])).flatten)
        rw [hcur]
        simp [hps, List.append_assoc]
      · show (st.chunks.map GChunk.folded).flatten ++ (st.curFolded ++ [k])
          = neIdx paras (k + 1)
        rw [neIdx_succ_pos paras k hps', ← hinv.foldedAcc, ← List.append_assoc]
      · show (st.current ++ pyStrip p.text ++ [nlChar]).length ≤
          max (cs + 1) (st.curOv + maxLenList paras (st.curFolded ++ [k]) + 1)
        rw [hlen]
        exact le_max_iff.mpr (Or.inl (by omega))
      · exact hinv.ovCfg
      · exact hinv.chunksOK
      · exact hinv.chain
      · exact hinv.lastLink
    · by_cases hcur : st.current = []
      · -- oversized first paragraph: nothing to flush, fresh buffer
        obtain ⟨hch, hcf, hcov, hpos⟩ := hinv.emptyInit hcur
        have hfit0 : ¬ (pyStrip p.text).length ≤ cs := by
          rw [hcur] at hfit
          simpa using hfit
        have hstep : segStep allU imap cs ov k p st =
            { chunks := st.chunks,
              current := pyStrip p.text ++ [nlChar],
              curImages := p.rIds.filterMap (fun r => lookupTR imap r),
              idx := st.idx,
              pos := st.pos + (pyStrip p.text).length + 1,
              curOv := 0,
              curFolded := [k] } := by
          simp [segStep, hpt, hcur, hfit0, overlap_text_nil]
        rw [hstep]
        have hflat0 : neIdx paras k = [] := by
          rw [← hinv.foldedAcc, hch, hcf]
          simp
        refine ⟨?_, ?_, ?_, ?_, ?_, ?_, ?_, ?_, ?_, ?_, ?_⟩
        · show st.pos + (pyStrip p.text).length + 1 + 0
            = (pyStrip p.text ++ [nlChar]).length + lastEnd st
          have : lastEnd st = 0 := by simp [lastEnd, hch]
          rw [this]
          simp only [List.length_append, List.length_cons, List.length_nil]
          try omega
        · intro h
          exact absurd h (by simp)
        · intro _
          show 0 < (pyStrip p.text ++ [nlChar]).length
          simp
        · intro _
          exact List.getLast?_concat _
        · exact ⟨[], rfl, by simp [hps]⟩
        · show (st.chunks.map GChunk.folded).flatten ++ [k] = neIdx paras (k + 1)
          rw [neIdx_succ_pos paras k hps', hflat0, hch]
          simp
        · show (pyStrip p.text ++ [nlChar]).length ≤
            max (cs + 1) (0 + maxLenList paras [k] + 1)
          have hm : maxLenList paras [k] = (pyStrip p.text).length := by
            simp [maxLenList, hps]
          rw [hm]
          refine le_max_iff.mpr (Or.inr ?_)
          simp
        · intro _
          exact Nat.zero_le _
        · intro c hc
          rw [hch] at hc
          cases hc
        · show List.Chain' adjOK st.chunks
          rw [hch]
          exact List.chain'_nil
        · intro h
          rw [hch] at h
          exact absurd rfl h
      · -- flush the pending chunk, then restart with the overlap carry
        obtain ⟨hcOK, hchain, hflat⟩ :=
          flushChunk_props paras allU cs ov k st hcur hinv
        have hstep : segStep allU imap cs ov k p st =
            { chunks := (flushChunk allU st).chunks,
              current := overlap_text st.current ov ++ pyStrip p.text ++ [nlChar],
              curImages := p.rIds.filterMap (fun r => lookupTR imap r),
              idx := (flushChunk allU st).idx,
              pos := st.pos + (pyStrip p.text).length + 1,
              curOv := (overlap_text st.current ov).length,
              curFolded := [k] } := by
          simp [segStep, hpt, hfit, hcur, flushChunk_pos]
        rw [hstep]
        have hlen : (overlap_text st.current ov ++ pyStrip p.text ++ [nlChar]).length
            = (overlap_text st.current ov).length + (pyStrip p.text).length + 1 := by
          simp only [List.length_append, List.length_cons, List.length_nil]
          try omega
        refine ⟨?_, ?_, ?_, ?_, ?_, ?_, ?_, ?_, ?_, ?_, ?_⟩
        · show st.pos + (pyStrip p.text).length + 1 + (overlap_text st.current ov).length
            = (overlap_text st.current ov ++ pyStrip p.text ++ [nlChar]).length
              + lastEnd (flushChunk allU st)
          rw [hlen, lastEnd_flushChunk]
          omega
        · intro h
          exact absurd h (by simp)
        · intro _
          show (overlap_text st.current ov).length <
            (overlap_text st.current ov ++ pyStrip p.text ++ [nlChar]).length
          rw [hlen]
          omega
        · intro _
          show (overlap_text st.current ov ++ pyStrip p.text ++ [nlChar]).getLast?
            = some nlChar
          exact List.getLast?_concat _
        · exact ⟨overlap_text st.current ov, rfl, by simp [hps]⟩
        · show ((flushChunk allU st).chunks.map GChunk.folded).flatten ++ [k]
            = neIdx paras (k + 1)
          rw [neIdx_succ_pos paras k hps', hflat]
        · show (overlap_text st.current ov ++ pyStrip p.text ++ [nlChar]).length ≤
            max (cs + 1)
              ((overlap_text st.current ov).length + maxLenList paras [k] + 1)
          have hm : maxLenList paras [k] = (pyStrip p.text).length := by
            simp [maxLenList, hps]
          rw [hlen, hm]
          exact le_max_iff.mpr (Or.inr (by omega))
        · intro hov
          exact overlap_text_length_cfg _ _ hov
        · exact hcOK
        · exact hchain
        · intro _
          show (overlap_text st.current ov).length ≤ lastBufLen (flushChunk allU st)
          rw [lastBufLen_flushChunk]
          exact overlap_text_length_le _ _

/-- The invariant holds of the initial state. -/
theorem segInv_init (paras : List Para) (allU : List UrlRec) (cs ov : Nat) :
    SegInv paras allU cs ov 0 initSt := by
  refine ⟨rfl, fun _ => ⟨rfl, rfl, rfl, rfl⟩, ?_, ?_, ⟨[], rfl, rfl⟩, ?_, ?_, ?_, ?_, ?_, ?_⟩
  · intro h
    exact absurd rfl h
  · intro h
    exact absurd rfl h
  · simp [neIdx, initSt]
  · simp [initSt]
  · intro _
    exact Nat.zero_le _
  · intro c hc
    cases hc
  · exact List.chain'_nil
  · intro h
    exact absurd rfl h

/-- Running the loop over the remaining paragraphs preserves the invariant. -/
theorem segLoop_inv (paras : List Para) (allU : List UrlRec)
    (imap : List (Text × Text)) (cs ov : Nat) :
    ∀ (ps : List Para) (k : Nat) (st : SegSt),
      paras.drop k = ps → SegInv paras allU cs ov k st →
      SegInv paras allU cs ov (k + ps.length)
        (segLoop allU imap cs ov k ps st) := by
  intro ps
  induction ps with
  | nil =>
    intro k st _ h
    simpa [segLoop] using h
  | cons p rest ih =>
    intro k st hdrop hinv
    have hget : paras.get? k = some p := by
      have h0 : (paras.drop k).get? 0 = some p := by rw [hdrop]; rfl
      rw [List.get?_drop] at h0
      simpa using h0
    have hp : paras.getD k dPara = p := by
      rw [List.getD_eq_get?, hget]
      rfl
    have hdrop' : paras.drop (k + 1) = rest := by
      have : paras.drop (k + 1) = (paras.drop k).drop 1 := by
        rw [List.drop_drop]
      rw [this, hdrop]
      rfl
    have hnext := ih (k + 1) (segStep allU imap cs ov k p st) hdrop'
      (segStep_inv paras allU imap cs ov k p st hp hinv)
    show SegInv paras allU cs ov (k + (rest.length + 1))
      (segLoop allU imap cs ov (k + 1) rest (segStep allU imap cs ov k p st))
    have harith : k + (rest.length + 1) = (k + 1) + rest.length := by omega
    rw [harith]
    exact hnext

/-- The emitted chunk list satisfies the per-chunk facts, the adjacency
chain, and accounts every non-empty paragraph exactly once across the
chunks' folded index lists. -/
theorem segmentGhost_inv (paras : List Para) (imap : List (Text × Text))
    (cs ov : Nat) :
    (∀ c ∈ segmentGhost paras imap cs ov,
        ChunkOK paras (extract_urls (fullTextOf paras)) cs ov c)
    ∧ List.Chain' adjOK (segmentGhost paras imap cs ov)
    ∧ ((segmentGhost paras imap cs ov).map GChunk.folded).flatten
        = neIdx paras paras.length := by
  have hinv := segLoop_inv paras (extract_urls (fullTextOf paras)) imap cs ov
    paras 0 initSt rfl (segInv_init paras (extract_urls (fullTextOf paras)) cs ov)
  rw [Nat.zero_add] at hinv
  set stF := segLoop (extract_urls (fullTextOf paras)) imap cs ov 0 paras initSt with hstF
  have hsg : segmentGhost paras imap cs ov =
      (if stF.current = [] then stF else flushChunk (extract_urls (fullTextOf paras)) stF).chunks := by
    rw [segmentGhost]
  by_cases hcur : stF.current = []
  · obtain ⟨hch, hcf, hcov, hpos⟩ := hinv.emptyInit hcur
    rw [hsg, if_pos hcur]
    refine ⟨?_, hinv.chain, ?_⟩
    · exact hinv.chunksOK
    · have := hinv.foldedAcc
      rw [hcf] at this
      simpa using this
  · obtain ⟨hOK, hchain, hflat⟩ := flushChunk_props paras
      (extract_urls (fullTextOf paras)) cs ov paras.length stF hcur hinv
    rw [hsg, if_neg hcur]
    exact ⟨hOK, hchain, hflat⟩

/-- C3: every paragraph with non-empty trimmed text is folded into exactly
one emitted chunk, and its trimmed text occurs inside that chunk's primary
(non-overlap) portion — the buffer beyond the carried overlap prefix.  No
non-empty paragraph is lost. -/
theorem c3_paragraph_conservation (paras : List Para) (imap : List (Text × Text))
    (cs ov : Nat) (i : Nat) (hi : i < paras.length)
    (hne : paraStrip paras i ≠ []) :
    ((segmentGhost paras imap cs ov).filter
        (fun c => decide (i ∈ c.folded))).length = 1
    ∧ ∀ c ∈ segmentGhost paras imap cs ov, i ∈ c.folded →
        ∃ l r, c.buffer.drop c.ovLen = l ++ paraStrip paras i ++ r := by
  obtain ⟨hOK, _, hflat⟩ := segmentGhost_inv paras imap cs ov
  constructor
  · have h1 : (((segmentGhost paras imap cs ov).map GChunk.folded).filter
        (fun l => decide (i ∈ l))).length = 1 := by
      apply filter_length_of_count_flatten_one
      rw [hflat]
      exact List.count_eq_one_of_mem (neIdx_nodup paras paras.length)
        (mem_neIdx paras paras.length i hi hne)
    rw [List.filter_map, List.length_map] at h1
    exact h1
  · intro c hc hif
    obtain ⟨_, _, ⟨pre, hpre, hbuf⟩, _, _, _, _⟩ := hOK c hc
    have hdrop : c.buffer.drop c.ovLen =
        ((c.folded.map (fun j => paraStrip paras j ++ [nlChar])).flatten) := by
      rw [hbuf, ← hpre]
      exact List.drop_left _ _
    rcases flatten_mem_decomp (fun j => paraStrip paras j ++ [nlChar])
      c.folded i hif with ⟨l, r, he⟩
    refine ⟨l, [nlChar] ++ r, ?_⟩
    rw [hdrop, he]
    simp [List.append_assoc]

/-- C3 witness: the single-paragraph document has its paragraph folded into
exactly one chunk. -/
theorem c3_paragraph_conservation_witness :
    ((segmentGhost c3doc [] 1000 200).filter
        (fun c => decide (0 ∈ c.folded))).length = 1 :=
  (c3_paragraph_conservation c3doc [] 1000 200 0 (by decide) (by decide)).1

/-- C4 amended: with `0 < overlap < max_chunk_size`, every emitted chunk's
content (the stripped buffer, as projected by `toRec`) has length at most
`max(max_chunk_size, overlap + L)` where `L` is the longest trimmed
paragraph folded into that chunk; a chunk may thus exceed the budget by up
to the overlap carry even when no single paragraph is oversized, and an
oversized paragraph is emitted whole. -/
theorem c4_soft_size_bound (paras : List Para) (imap : List (Text × Text))
    (cs ov : Nat) (hov : 0 < ov) (_hms : ov < cs) :
    ∀ g ∈ segmentGhost paras imap cs ov, ∀ f : List Text → List Text,
      (toRec f g).content.length ≤ max cs (ov + maxLenList paras g.folded) := by
  intro g hg f
  obtain ⟨hOK, _, _⟩ := segmentGhost_inv paras imap cs ov
  obtain ⟨_, _, _, _, hnl, hlb, hovc⟩ := hOK g hg
  have h1 : (pyStrip g.buffer).length < g.buffer.length := pyStrip_length_lt _ hnl
  have h2 := hovc hov
  have hcontent : (toRec f g).content = pyStrip g.buffer := rfl
  rw [hcontent]
  rcases le_max_iff.mp hlb with h | h
  · exact le_max_iff.mpr (Or.inl (by omega))
  · exact le_max_iff.mpr (Or.inr (by omega))

/-- C4 witness: the bound applied to the 1100-character middle chunk of
`c4doc`. -/
theorem c4_soft_size_bound_witness :
    (toRec List.dedup gW4).content.length ≤
      max 1000 (200 + maxLenList c4doc gW4.folded) := by
  have hm : (segmentGhost c4doc [] 1000 200).get? 1 = some gW4 := by rfl
  exact c4_soft_size_bound c4doc [] 1000 200 (by decide) (by decide) gW4
    (List.get?_mem hm) List.dedup

/-- C2 amended: chunk N+1's recorded range starts exactly `ovLen` characters
before chunk N ends, so every extracted URL whose offset lies in the
original-text span duplicated as chunk N+1's overlap prefix — the last
`ovLen` characters before chunk N's end — IS selected into chunk N+1's link
list, and into chunk N's as well (it is attributed twice, not skipped). -/
theorem c2_overlap_links_doubled (paras : List Para) (imap : List (Text × Text))
    (cs ov k : Nat) (h1 : k + 1 < (segmentGhost paras imap cs ov).length)
    (u : UrlRec) (hu : u ∈ extract_urls (fullTextOf paras))
    (hlo : ((segmentGhost paras imap cs ov).getD k dG).gEnd ≤
      u.position + ((segmentGhost paras imap cs ov).getD (k + 1) dG).ovLen)
    (hhi : u.position < ((segmentGhost paras imap cs ov).getD k dG).gEnd) :
    u ∈ ((segmentGhost paras imap cs ov).getD k dG).urlDetails
    ∧ u ∈ ((segmentGhost paras imap cs ov).getD (k + 1) dG).urlDetails := by
  obtain ⟨hOK, hchain, _⟩ := segmentGhost_inv paras imap cs ov
  have hk : k < (segmentGhost paras imap cs ov).length := by omega
  have hgk : (segmentGhost paras imap cs ov).getD k dG =
      (segmentGhost paras imap cs ov).get ⟨k, hk⟩ := by
    rw [List.getD_eq_get?, List.get?_eq_get hk]
    rfl
  have hgk1 : (segmentGhost paras imap cs ov).getD (k + 1) dG =
      (segmentGhost paras imap cs ov).get ⟨k + 1, h1⟩ := by
    rw [List.getD_eq_get?, List.get?_eq_get h1]
    rfl
  rw [hgk] at hhi
  rw [hgk, hgk1] at hlo
  rw [hgk, hgk1]
  set cN := (segmentGhost paras imap cs ov).get ⟨k, hk⟩ with hcN
  set cN1 := (segmentGhost paras imap cs ov).get ⟨k + 1, h1⟩ with hcN1
  have hmemN : cN ∈ segmentGhost paras imap cs ov := List.get_mem _ k hk
  have hmemN1 : cN1 ∈ segmentGhost paras imap cs ov := List.get_mem _ (k + 1) h1
  obtain ⟨hudN, hseN, _, _, _, _, _⟩ := hOK cN hmemN
  obtain ⟨hudN1, _, _, _, _, _, _⟩ := hOK cN1 hmemN1
  have hadj : adjOK cN cN1 := (List.chain'_iff_get.mp hchain) k (by omega)
  obtain ⟨ha1, ha2, ha3⟩ := hadj
  constructor
  · rw [hudN]
    refine List.mem_filter.mpr ⟨hu, ?_⟩
    rw [Bool.and_eq_true, decide_eq_true_eq, decide_eq_true_eq]
    constructor
    · omega
    · omega
  · rw [hudN1]
    refine List.mem_filter.mpr ⟨hu, ?_⟩
    rw [Bool.and_eq_true, decide_eq_true_eq, decide_eq_true_eq]
    constructor
    · rw [ha1]
      omega
    · omega

/-- C2 witness: the amended statement applied to `c2doc`: the URL at offset
3 lies in the duplicated span before chunk 0's end (16) and is listed in
both chunks' link lists. -/
theorem c2_overlap_links_doubled_witness :
    uC2 ∈ ((segmentGhost c2doc [] 20 15).getD 0 dG).urlDetails
    ∧ uC2 ∈ ((segmentGhost c2doc [] 20 15).getD 1 dG).urlDetails :=
  c2_overlap_links_doubled c2doc [] 20 15 0 (by decide) uC2 (by decide)
    (by decide) (by decide)

/-- C6 amended: for any two faithful realizations of `list(set(...))`, two
runs on identical input with identical configuration produce chunk lists
that agree on every field except the images ordering, where they agree up
to permutation — the output is deterministic only modulo the set iteration
order of the images list. -/
theorem c6_deterministic_mod_image_order (f g : List Text → List Text)
    (hf : IsPySetList f) (hg : IsPySetList g) (paras : List Para)
    (imap : List (Text × Text)) (cs ov : Nat) :
    List.Forall₂ (fun a b => a.chunk_index = b.chunk_index
      ∧ a.content = b.content ∧ a.urls = b.urls
      ∧ a.url_details = b.url_details ∧ a.has_images = b.has_images
      ∧ a.has_links = b.has_links ∧ a.image_count = b.image_count
      ∧ a.link_count = b.link_count ∧ a.images.Perm b.images)
      (chunk_text_with_metadata f paras imap cs ov)
      (chunk_text_with_metadata g paras imap cs ov) := by
  unfold chunk_text_with_metadata
  generalize segmentGhost paras imap cs ov = gs
  induction gs with
  | nil => exact List.Forall₂.nil
  | cons x xs ih =>
    refine List.Forall₂.cons ?_ ih
    refine ⟨rfl, rfl, rfl, rfl, rfl, rfl, rfl, rfl, ?_⟩
    exact (List.perm_ext_iff_of_nodup (hf x.rawImages).1 (hg x.rawImages).1).mpr
      (fun a => ((hf x.rawImages).2 a).trans ((hg x.rawImages).2 a).symm)

/-- C6 amendment witness: the two concrete realizations on `c6doc`. -/
theorem c6_deterministic_mod_image_order_witness :
    List.Forall₂ (fun a b => a.chunk_index = b.chunk_index
      ∧ a.content = b.content ∧ a.urls = b.urls
      ∧ a.url_details = b.url_details ∧ a.has_images = b.has_images
      ∧ a.has_links = b.has_links ∧ a.image_count = b.image_count
      ∧ a.link_count = b.link_count ∧ a.images.Perm b.images)
      (chunk_text_with_metadata List.dedup c6doc c6map 1000 200)
      (chunk_text_with_metadata revSet c6doc c6map 1000 200) :=
  c6_deterministic_mod_image_order List.dedup revSet isPySetList_dedup
    isPySetList_revSet c6doc c6map 1000 200
